import Mathlib

/-!
Verification of the pdf-to-md transformation pipeline.

This file gives a shallow embedding, in Lean 4, of the document-model
transformations of the converter (typography statistics, repetitive-element
pruning, line compaction, code-block detection, TOC detection, heading
detection and Markdown rendering), and proves properties of those embedded
functions.

Modelling conventions:
- `f64` coordinates, sizes and thresholds are modelled as exact rationals
  (`ℚ`); all comparisons in the source are order comparisons on small
  decimal constants, which the exact rationals reproduce.
- Rust `String`s are Lean `String`s; `str::contains(pat)` is modelled by
  counting `splitOn` pieces; character-set membership is by explicit lists.
- The 64-bit `DefaultHasher` of `hash_string` is modelled as an idealized
  collision-free hash: the hash value of a normalized string is represented
  by the normalized string itself, and the sentinel value `0` (returned for
  whitespace-only input without hashing) is represented by `none`.
- `HashMap`s keyed by strings are modelled as association lists.
-/

set_option maxRecDepth 4000

namespace PdfToMd

/-- Emphasis tag attached to a text fragment (`WordFormat` in `models.rs`). -/
inductive WordFormat where
  | bold
  | italic
  | boldItalic
  | code
deriving DecidableEq, Repr

/-- Structural role of a line (`BlockType` in `models.rs`). -/
inductive BlockType where
  | paragraph
  | h1
  | h2
  | h3
  | h4
  | h5
  | h6
  | code
  | listItem
  | footnote
  | tocItem (level : Nat)
deriving DecidableEq, Repr

/-- A positioned text fragment (`TextItem` in `models.rs`). -/
structure TextItem where
  text : String
  x : ℚ
  y : ℚ
  width : ℚ
  height : ℚ
  font : String
  fontSize : ℚ
  format : Option WordFormat
deriving DecidableEq, Repr

/-- A grouped visual line (`LineItem` in `models.rs`). -/
structure LineItem where
  items : List TextItem
  x : ℚ
  y : ℚ
  width : ℚ
  height : ℚ
  blockType : BlockType
deriving DecidableEq, Repr

/-- A page item (`ItemType` in `models.rs`). -/
inductive ItemType where
  | textItem (t : TextItem)
  | lineItem (l : LineItem)
  | markdown (s : String)
deriving DecidableEq, Repr

/-- The font-name → emphasis map of `GlobalStats`, as an association list. -/
abbrev FontFormatMap := List (String × WordFormat)

/-- Looks a font name up in the font → emphasis association list
(models `HashMap::get` on `font_to_format`). -/
def lookupFormat (m : FontFormatMap) (font : String) : Option WordFormat :=
  (m.find? (fun p => p.1 = font)).map (·.2)

/-- Document-wide typography statistics (`GlobalStats` in `models.rs`). -/
structure GlobalStats where
  mostUsedHeight : ℚ
  mostUsedDistance : ℚ
  mostUsedFont : String
  maxHeight : ℚ
  fontToFormat : FontFormatMap
deriving DecidableEq, Repr

/-! ### Character-list string operations

The Rust `str` operations used by the pipeline, implemented by structural
recursion over the character list of a `String` so that every concrete
instance evaluates inside the kernel. -/

/-- `pre` is a prefix of `s` (character-wise). -/
def startsWithL : List Char → List Char → Bool
  | _, [] => true
  | [], _ :: _ => false
  | c :: s, p :: ps => c = p && startsWithL s ps

/-- Rust `str::contains(pat)`: `pat` occurs contiguously in `s`. -/
def containsSubL (s pat : List Char) : Bool :=
  match s with
  | [] => startsWithL [] pat
  | _ :: rest => startsWithL s pat || containsSubL rest pat

/-- Rust `str::contains(pat)` on `String`s. -/
def containsSub (s pat : String) : Bool :=
  containsSubL s.data pat.data

/-- Rust `str::starts_with` on `String`s. -/
def strStartsWith (s pre : String) : Bool :=
  startsWithL s.data pre.data

/-- Rust `str::ends_with` on `String`s. -/
def strEndsWith (s suf : String) : Bool :=
  startsWithL s.data.reverse suf.data.reverse

/-- Rust `str::to_lowercase` (simple one-to-one lowercasing). -/
def strToLower (s : String) : String :=
  String.mk (s.data.map Char.toLower)

/-- Rust `str::trim`: whitespace stripped from both ends. -/
def strTrim (s : String) : String :=
  String.mk ((s.data.dropWhile Char.isWhitespace).reverse.dropWhile Char.isWhitespace).reverse

/-- Rust `slice::join(sep)` over strings. -/
def strIntercalate (sep : String) : List String → String
  | [] => ""
  | s :: rest => rest.foldl (fun acc t => acc ++ sep ++ t) s

/-- One step of Rust `str::replace`: non-overlapping occurrences of the
nonempty pattern `pat` are replaced by `rep`, left to right (`pat = []`
returns the input unchanged; the pipeline only replaces `"**"` and `"_"`). -/
def replaceL (pat rep : List Char) : List Char → List Char
  | [] => []
  | c :: rest =>
    if pat ≠ [] ∧ startsWithL (c :: rest) pat then
      rep ++ replaceL pat rep ((c :: rest).drop pat.length)
    else
      c :: replaceL pat rep rest
termination_by s => s.length
decreasing_by
  · simp only [List.length_drop, List.length_cons]
    have hp : 1 ≤ pat.length := by
      cases pat with
      | nil => simp_all
      | cons p ps => simp
    omega
  · simp

/-- Rust `str::replace` on `String`s. -/
def strReplace (s pat rep : String) : String :=
  String.mk (replaceL pat.data rep.data s.data)

/-- Rust `str::split_whitespace` on a character list: the maximal
non-whitespace runs, in order. -/
def wordsGo (cur : List Char) : List Char → List (List Char)
  | [] => if cur.isEmpty then [] else [cur.reverse]
  | c :: rest =>
    if c.isWhitespace then
      if cur.isEmpty then wordsGo [] rest else cur.reverse :: wordsGo [] rest
    else wordsGo (c :: cur) rest

/-- Rust `str::split_whitespace` on `String`s. -/
def splitWs (s : String) : List String :=
  (wordsGo [] s.data).map String.mk

end PdfToMd

namespace PdfToMd

/-! ## Line Compactor (`compact_lines.rs`) -/

/-- Vertical tolerance used by `group_items_by_line` for extending the
current line: `0.8 × font size` of the line's first fragment when that size
is positive, and the dominant line distance as the fallback otherwise. -/
def lineTolerance (first : TextItem) (mostUsedDistance : ℚ) : ℚ :=
  if 0 < first.fontSize then first.fontSize * (4 / 5) else mostUsedDistance

/-- `sort_line_by_x`: order a line's fragments by ascending `x`
(Rust's stable `sort_by`, modelled by a stable insertion sort). -/
def sortLineByX (line : List TextItem) : List TextItem :=
  line.insertionSort (fun a b => a.x ≤ b.x)

/-- The fragment-walking loop of `group_items_by_line`, before the per-line
horizontal sort: `cur` is the line currently being built.  A new line is
started exactly when the absolute vertical distance between the walked
fragment and the current line's first fragment exceeds the tolerance. -/
def groupGo (mud : ℚ) (cur : List TextItem) : List TextItem → List (List TextItem)
  | [] => if cur.isEmpty then [] else [cur]
  | item :: rest =>
    match cur with
    | [] => groupGo mud [item] rest
    | first :: _ =>
      if |first.y - item.y| > lineTolerance first mud then
        cur :: groupGo mud [item] rest
      else
        groupGo mud (cur ++ [item]) rest

/-- The vertical grouping of `group_items_by_line` without the per-line
horizontal sort. -/
def groupRaw (mud : ℚ) (items : List TextItem) : List (List TextItem) :=
  groupGo mud [] items

/-- `group_items_by_line`: walk the fragments in existing order, breaking
into lines by vertical distance, then sort each line by `x`. -/
def groupItemsByLine (items : List TextItem) (mud : ℚ) : List (List TextItem) :=
  (groupRaw mud items).map sortLineByX

/-- Closing punctuation suppressing an inserted space before a merged
fragment (the Rust character set `".,:;?!)]\x7d"`). -/
def closingPunct : List Char :=
  ['.', ',', ':', ';', '?', '!', ')', ']', Char.ofNat 125]

/-- Opening punctuation suppressing an inserted space after the running
fragment (the Rust character set `"([\x7b"`). -/
def openingPunct : List Char :=
  ['(', '[', Char.ofNat 123]

/-- First character of the next fragment is closing punctuation
(`is_next_punctuation` in `create_line_item`). -/
def startsWithClosingPunct (s : String) : Bool :=
  match s.toList.head? with
  | some c => closingPunct.contains c
  | none => false

/-- Last character of the running fragment is opening punctuation
(`is_current_open_punctuation` in `create_line_item`). -/
def endsWithOpeningPunct (s : String) : Bool :=
  match s.toList.getLast? with
  | some c => openingPunct.contains c
  | none => false

/-- The running fragment after gluing `item` directly onto `cur`
(gap ≤ 5 branch of `create_line_item`). -/
def glueMerge (cur item : TextItem) : TextItem :=
  { cur with
    text := cur.text ++ item.text
    width := (item.x + item.width) - cur.x
    height := max cur.height item.height }

/-- The running fragment after merging `item` onto `cur` with the
space-separator rule (second branch of `create_line_item`): a single space
is inserted unless `item` starts with closing punctuation or `cur` ends
with opening punctuation. -/
def spaceMerge (cur item : TextItem) : TextItem :=
  let sep : String :=
    if startsWithClosingPunct item.text || endsWithOpeningPunct cur.text then "" else " "
  { cur with
    text := cur.text ++ sep ++ item.text
    width := (item.x + item.width) - cur.x
    height := max cur.height item.height }

/-- The merging loop of `create_line_item`: `cur` is the running fragment;
each further fragment is glued (gap ≤ 5, same font), space-merged
(gap ≤ max(2 × font size, 30), same font) or flushes `cur`. -/
def mergeLoop (cur : TextItem) : List TextItem → List TextItem
  | [] => [cur]
  | item :: rest =>
    let gap := item.x - (cur.x + cur.width)
    if gap ≤ 5 ∧ item.font = cur.font then
      mergeLoop (glueMerge cur item) rest
    else if gap ≤ max (cur.fontSize * 2) 30 ∧ item.font = cur.font then
      mergeLoop (spaceMerge cur item) rest
    else
      cur :: mergeLoop item rest

/-- The horizontal merge of `create_line_item` over a line's (already
`x`-sorted) fragments. -/
def mergeTextItems : List TextItem → List TextItem
  | [] => []
  | first :: rest => mergeLoop first rest

/-- Emphasis markup application of `create_line_item`: a merged fragment
whose font maps to an emphasis gets its trimmed text wrapped in Markdown
markers, preserving one leading/trailing space; whitespace-only text is
left unchanged. -/
def applyFormat (fontToFormat : FontFormatMap) (item : TextItem) : TextItem :=
  match lookupFormat fontToFormat item.font with
  | none => item
  | some fmt =>
    let inner := strTrim item.text
    if inner = "" then item
    else
      let leading : String := if strStartsWith item.text " " then " " else ""
      let trailing : String := if strEndsWith item.text " " then " " else ""
      let formattedInner : String :=
        match fmt with
        | WordFormat.bold => "**" ++ inner ++ "**"
        | WordFormat.italic => "_" ++ inner ++ "_"
        | WordFormat.boldItalic => "**_" ++ inner ++ "_**"
        | WordFormat.code => inner
      { item with text := leading ++ formattedInner ++ trailing }

/-- `create_line_item`: merge a grouped line's fragments horizontally,
apply emphasis markup, and build the line's bounding box. -/
def createLineItem (items : List TextItem) (globals : GlobalStats) : Option LineItem :=
  match mergeTextItems items with
  | [] => none
  | m :: ms =>
    let merged := (m :: ms).map (applyFormat globals.fontToFormat)
    let first := applyFormat globals.fontToFormat m
    let last := merged.getLastD first
    some
      { items := merged
        x := first.x
        y := first.y
        width := (last.x + last.width) - first.x
        height := (merged.map (·.height)).foldl max 0
        blockType := BlockType.paragraph }

/-- The per-page `CompactLines` transformation: vertical grouping followed
by per-line merging. -/
def compactPage (items : List TextItem) (mud : ℚ) (globals : GlobalStats) : List LineItem :=
  (groupItemsByLine items mud).filterMap (fun g => createLineItem g globals)

/-! ## Typography Profiler emphasis classification (`stats.rs`) -/

/-- Bold detection by font-name tokens (`is_bold` in `calculate_global_stats`):
the lowercased name contains `bold` or `-bd`. -/
def fontNameIsBold (lower : String) : Bool :=
  containsSub lower "bold" || containsSub lower "-bd"

/-- Italic detection by font-name tokens (`is_italic` in
`calculate_global_stats`): the lowercased name contains `oblique`, `italic`,
`-ital` or `-it`. -/
def fontNameIsItalic (lower : String) : Bool :=
  containsSub lower "oblique" || containsSub lower "italic" ||
    containsSub lower "-ital" || containsSub lower "-it"

/-- The per-font classification of step 3 of `calculate_global_stats`: the
dominant font gets no emphasis; otherwise bold-and-italic names get
BoldItalic, bold names (or the max-height font) get Bold, italic names get
Italic, and anything else gets no emphasis. -/
def classifyFont (mostUsedFont maxHeightFont fontName : String) : Option WordFormat :=
  let lower := strToLower fontName
  let isBold := fontNameIsBold lower
  let isItalic := fontNameIsItalic lower
  let isMaxHeightFont := fontName = maxHeightFont
  if fontName = mostUsedFont then none
  else if isBold && isItalic then some WordFormat.boldItalic
  else if isBold || isMaxHeightFont then some WordFormat.bold
  else if isItalic then some WordFormat.italic
  else none

/-- Building `font_to_format` over the counted font names: fonts classified
`None` are not inserted into the map. -/
def buildFontToFormat (mostUsedFont maxHeightFont : String)
    (fonts : List String) : FontFormatMap :=
  fonts.foldl
    (fun acc f =>
      match classifyFont mostUsedFont maxHeightFont f with
      | some fmt => acc ++ [(f, fmt)]
      | none => acc)
    []

/-! ## Repetition Pruner (`remove_repetitive_elements.rs`) -/

/-- The text normalization inside `hash_string`: digits and whitespace
removed, remaining characters lowercased. -/
def normalizeForHash (s : String) : String :=
  String.mk ((s.toList.filter (fun c => !c.isDigit && !c.isWhitespace)).map Char.toLower)

/-- A page-band fingerprint: `none` models the sentinel hash `0` that
`hash_string` returns for whitespace-only input without hashing; `some n`
models the `DefaultHasher` value of the normalized text `n` (the 64-bit
hash is idealized as collision-free, so it is represented by the normalized
string itself). -/
def hashString (s : String) : Option String :=
  if strTrim s = "" then none else some (normalizeForHash s)

/-- Least `y` of a page's fragments (the `min_y` scan, `f64::MAX` → `none`). -/
def pageMinY (items : List TextItem) : Option ℚ :=
  match items with
  | [] => none
  | i :: rest => some (rest.foldl (fun m t => min m t.y) i.y)

/-- Greatest `y` of a page's fragments (the `max_y` scan, `f64::MIN` → `none`). -/
def pageMaxY (items : List TextItem) : Option ℚ :=
  match items with
  | [] => none
  | i :: rest => some (rest.foldl (fun m t => max m t.y) i.y)

/-- A fragment sits in the band at `y₀` when its `y` is within the 0.001
float-comparison tolerance. -/
def inBand (y₀ y : ℚ) : Bool :=
  |y - y₀| < 1 / 1000

/-- Concatenated text of the fragments sitting at the given extremal `y`. -/
def bandText (items : List TextItem) (y₀ : ℚ) : String :=
  String.join ((items.filter (fun t => inBand y₀ t.y)).map (·.text))

/-- `calculate_page_hashes`: fingerprints of the minimum-`y` and
maximum-`y` bands of a page ( `(0, 0)` for a page with no positioned item ). -/
def calculatePageHashes (items : List TextItem) : Option String × Option String :=
  match pageMinY items, pageMaxY items with
  | some minY, some maxY => (hashString (bandText items minY), hashString (bandText items maxY))
  | _, _ => (none, none)

/-- Number of pages whose fingerprint equals `h` (the `min_freq`/`max_freq`
counting, which only counts nonzero hashes: the sentinel `none` is never
counted and always looks up as frequency 0). -/
def countHash (hashes : List (Option String)) (h : Option String) : Nat :=
  match h with
  | none => 0
  | some v => (hashes.filter (fun x => x = some v)).length

/-- The page-count threshold: at least `max(3, ⌈2/3 × page count⌉)` pages
must share a fingerprint for the band to count as repetitive. -/
def repetitionThreshold (totalPages : Nat) : Nat :=
  max ((2 * totalPages + 2) / 3) 3

/-- The per-page filtering of the pruner's second pass: when one of the
page's extremal-band fingerprints is repetitive, drop exactly the fragments
sitting (within 0.001) at that extremal `y`. -/
def prunePage (removeMin removeMax : Bool) (items : List TextItem) : List TextItem :=
  if removeMin || removeMax then
    match pageMinY items, pageMaxY items with
    | some minY, some maxY =>
      items.filter (fun t =>
        !((inBand minY t.y && removeMin) || (inBand maxY t.y && removeMax)))
    | _, _ => items
  else items

/-- `RemoveRepetitiveElements::transform` over a document of
`TextFragment` pages: a no-op below 3 pages, else two passes (fingerprint
counting, then per-page removal). -/
def removeRepetitiveElements (pages : List (List TextItem)) : List (List TextItem) :=
  if pages.length < 3 then pages
  else
    let minHashes := pages.map (fun p => (calculatePageHashes p).1)
    let maxHashes := pages.map (fun p => (calculatePageHashes p).2)
    let threshold := repetitionThreshold pages.length
    pages.map (fun p =>
      let removeMin := threshold ≤ countHash minHashes (calculatePageHashes p).1
      let removeMax := threshold ≤ countHash maxHashes (calculatePageHashes p).2
      prunePage removeMin removeMax p)

/-- The spec-side relation "the two texts differ only by digit substrings,
whitespace, or letter case": removing every digit and whitespace character
and lowercasing the rest yields the same character sequence. -/
def differsOnlyByDigitsWhitespaceCase (a b : String) : Prop :=
  (a.data.filter (fun c => !c.isDigit && !c.isWhitespace)).map Char.toLower =
    (b.data.filter (fun c => !c.isDigit && !c.isWhitespace)).map Char.toLower

instance (a b : String) : Decidable (differsOnlyByDigitsWhitespaceCase a b) := by
  unfold differsOnlyByDigitsWhitespaceCase
  infer_instance

/-- The claim-side removal test: the fragment sits (within 0.001) at its
page's minimum or maximum `y`, and that band's fingerprint — when the band
has one — is shared by at least the threshold number of pages. -/
def specRemoves (pages : List (List TextItem)) (p : List TextItem) (t : TextItem) : Bool :=
  ((match pageMinY p with
    | some m => inBand m t.y
    | none => false) &&
    decide (repetitionThreshold pages.length ≤
      countHash (pages.map (fun q => (calculatePageHashes q).1)) (calculatePageHashes p).1)) ||
  ((match pageMaxY p with
    | some m => inBand m t.y
    | none => false) &&
    decide (repetitionThreshold pages.length ≤
      countHash (pages.map (fun q => (calculatePageHashes q).2)) (calculatePageHashes p).2))

/-! ## Code-Block Detector (`detect_code_blocks.rs`) -/

/-- Concatenated text of a line's fragments (`join("")` in the sources). -/
def lineText (l : LineItem) : String :=
  String.join (l.items.map (·.text))

/-- The header screen of the detector: taller than the dominant height plus
one unit, or containing the literal `Preface`. -/
def isLikelyHeaderLine (mostUsedHeight : ℚ) (l : LineItem) : Bool :=
  decide (l.height > mostUsedHeight + 1) || containsSub (lineText l) "Preface"

/-- The keyword cues of the candidate test (`has_code_keywords`). -/
def hasCodeKeywords (lower : String) : Bool :=
  containsSub lower "import " || containsSub lower "from " || containsSub lower "def " ||
    containsSub lower "class " || containsSub lower "try:" || containsSub lower "except" ||
    containsSub lower "return " || containsSub lower "print(" || containsSub lower "if " ||
    containsSub lower "for " || containsSub lower "while " || containsSub lower "with "

/-- The symbol cues of the candidate test (`has_code_symbols`). -/
def hasCodeSymbols (text : String) : Bool :=
  text.toList.contains (Char.ofNat 123) || text.toList.contains (Char.ofNat 125) ||
    text.toList.contains ';' || containsSub text "=>" || containsSub text " = " ||
    containsSub text " (" || containsSub text " [" || containsSub text "] " ||
    containsSub text "):" || containsSub text " # "

/-- The strong explicit-code-indicator test
(`l_has_explicit_code_indicators`). -/
def hasExplicitCodeIndicators (text lower : String) : Bool :=
  containsSub lower "import " || containsSub lower "from " || containsSub lower "def " ||
    containsSub lower "async def " || containsSub lower "class " || containsSub lower "try:" ||
    containsSub lower "except" || containsSub lower "return " || containsSub lower "print(" ||
    containsSub lower "@app." || containsSub lower "await " || containsSub lower "asyncio." ||
    containsSub lower "if __name__" || strStartsWith lower "@" ||
    text.toList.contains (Char.ofNat 123) || text.toList.contains (Char.ofNat 125) ||
    text.toList.contains ';' || containsSub text "=>" || containsSub text " = " ||
    containsSub text "):"

/-- The strong-indicator test applied to a whole line. -/
def lineHasIndicators (l : LineItem) : Bool :=
  hasExplicitCodeIndicators (lineText l) (strToLower (lineText l))

/-- The code-candidate test (`looks_like_code`): not a header, not
bold-markup-wrapped, and either indented with code cues or plain text, or
carrying strong explicit indicators regardless of indentation. -/
def looksLikeCode (mostUsedHeight indentThreshold : ℚ) (l : LineItem) : Bool :=
  let text := lineText l
  let lower := strToLower text
  let isIndented := decide (l.x > indentThreshold)
  let isPlain := l.items.all (fun i => i.format = none)
  let hasMarkdownBold := strStartsWith (strTrim text) "**" && strEndsWith (strTrim text) "**"
  !isLikelyHeaderLine mostUsedHeight l && !hasMarkdownBold &&
    ((isIndented && (hasCodeKeywords lower || hasCodeSymbols text ||
        (isPlain && !(text = "")))) ||
      hasExplicitCodeIndicators text lower)

/-- Marks emitted when a run of consecutive candidate lines ends: a run of
two or more lines is marked wholesale; a singleton is marked only when it
passes the strong-indicator test. -/
def finishRun (ind : LineItem → Bool) (run : List LineItem) : List Bool :=
  if 2 ≤ run.length then run.map (fun _ => true) else run.map ind

/-- The candidate-grouping loop of `DetectCodeBlocks::transform`: `run` is
the current block of consecutive candidate lines; a non-candidate line ends
the block (and is itself unmarked). -/
def markGo (cand ind : LineItem → Bool) (run : List LineItem) : List LineItem → List Bool
  | [] => finishRun ind run
  | l :: rest =>
    if cand l then markGo cand ind (run ++ [l]) rest
    else finishRun ind run ++ false :: markGo cand ind [] rest

/-- Per-line code marks produced by the candidate pass of
`DetectCodeBlocks::transform` on a page. -/
def codeFlags (mostUsedHeight indentThreshold : ℚ) (lines : List LineItem) : List Bool :=
  markGo (looksLikeCode mostUsedHeight indentThreshold) lineHasIndicators [] lines

/-! ## TOC Detector (`detect_toc.rs`) -/

/-- A dot-fill word: every character is `.` (an empty text also satisfies
the Rust `all`). -/
def isAllDots (s : String) : Bool :=
  s.toList.all (fun c => c = '.')

/-- Strips trailing Markdown emphasis markers and spaces
(`trim_end_matches(|c| c == '*' || c == '_' || c == ' ')`). -/
def trimTrailingMarkers (s : String) : String :=
  String.mk ((s.toList.reverse.dropWhile (fun c => c = '*' || c = '_' || c = ' ')).reverse)

/-- `DetectTOC::line_ends_with_digit`: after dropping dot-fill words, the
last word's text — with trailing markers stripped — ends in a digit. -/
def lineEndsWithDigit (l : LineItem) : Bool :=
  let words := l.items.filter (fun w => !isAllDots w.text)
  match words.getLast? with
  | some last =>
    match (trimTrailingMarkers last.text).toList.getLast? with
    | some c => c.isDigit
    | none => false
  | none => false

/-- The TOC-page test: strictly more than 75% of the page's processed lines
end with a trailing page number. -/
def tocQualifies (lines : List LineItem) : Bool :=
  let processed := lines.length
  let withDigits := (lines.filter lineEndsWithDigit).length
  decide (0 < processed) &&
    decide ((75 : ℚ) < (withDigits * 100 : ℚ) / (processed : ℚ))

/-- Indices of the detected TOC pages: only the first 20 pages are
evaluated (`min(20, pages.len())` with `take`). -/
def tocPageIndices (pages : List (List LineItem)) : List Nat :=
  (pages.enum.take 20).filterMap (fun p => if tocQualifies p.2 then some p.1 else none)

/-! ## Heading Detector (`detect_headers.rs`) -/

/-- Max fragment font size of a line (`fold(0.0, f64::max)`). -/
def lineMaxFontSize (l : LineItem) : ℚ :=
  (l.items.map (·.fontSize)).foldl max 0

/-- The list-item screen of the ladder collection: trimmed text starting
with `-` or `*`, or starting with a digit and containing a dot
(Rust `char::is_numeric` modelled by `Char.isDigit`). -/
def isListItemShaped (l : LineItem) : Bool :=
  let t := strTrim (lineText l)
  strStartsWith t "-" || strStartsWith t "*" ||
    ((match t.toList.head? with
      | some c => c.isDigit
      | none => false) &&
      t.toList.contains '.')

/-- The collection loop over the document's lines: a line's max font size
is appended when it is strictly above `min_header_height`, the line is not
list-shaped, and no collected height is within 1.0 of it. -/
def collectGo (minHeaderHeight : ℚ) (acc : List ℚ) : List LineItem → List ℚ
  | [] => acc
  | l :: rest =>
    if lineMaxFontSize l > minHeaderHeight ∧ ¬isListItemShaped l ∧
        ¬acc.any (fun dh => |dh - lineMaxFontSize l| < 1) then
      collectGo minHeaderHeight (acc ++ [lineMaxFontSize l]) rest
    else collectGo minHeaderHeight acc rest

/-- Collection of distinct heading heights over all lines of the document:
heights strictly above `min_header_height` on non-list lines, deduplicated
with tolerance 1.0 in walk order. -/
def collectDistinctHeights (minHeaderHeight : ℚ) (lines : List LineItem) : List ℚ :=
  collectGo minHeaderHeight [] lines

/-- The collected heights sorted descending (`sort_by(b.partial_cmp(a))`). -/
def distinctHeightsSorted (minHeaderHeight : ℚ) (lines : List LineItem) : List ℚ :=
  (collectDistinctHeights minHeaderHeight lines).insertionSort (fun a b => b ≤ a)

/-- Rust `Iterator::position`: index of the first element satisfying the
predicate. -/
def position (p : ℚ → Bool) : List ℚ → Option Nat
  | [] => none
  | a :: rest => if p a then some 0 else (position p rest).map (· + 1)

/-- The heading level the global ladder attaches to a ladder position:
position 0 is H2, position 4 is H6. -/
def ladderLevel : Nat → BlockType
  | 0 => BlockType.h2
  | 1 => BlockType.h3
  | 2 => BlockType.h4
  | 3 => BlockType.h5
  | _ => BlockType.h6

/-- The per-line block-type decision of step 3 of
`DetectHeaders::transform`: title-page H1/H2 first, then the global ladder
(`position + 2`, only assigned while the level stays within H6). -/
def applyTitleAndLadder (isTitlePage : Bool) (maxHeight min2ndLevel minHeaderHeight : ℚ)
    (heights : List ℚ) (l : LineItem) : BlockType :=
  if l.blockType = BlockType.paragraph then
    let h := lineMaxFontSize l
    if isTitlePage ∧ |h - maxHeight| < 1 then BlockType.h1
    else if isTitlePage ∧ h ≥ min2ndLevel then BlockType.h2
    else if h ≥ minHeaderHeight then
      match position (fun dh => decide (|dh - h| < 1)) heights with
      | some pos =>
        let level := pos + 2
        if level ≤ 6 then
          match level with
          | 2 => BlockType.h2
          | 3 => BlockType.h3
          | 4 => BlockType.h4
          | 5 => BlockType.h5
          | _ => BlockType.h6
        else l.blockType
      | none => l.blockType
    else l.blockType
  else l.blockType

/-! ## Markdown Renderer (`to_markdown.rs`) -/

/-- The renderer's per-page state: accumulated Markdown, the open-fence
flag, the previous line's `y` (initially `-1`), the previous-line-heading
flag, and a count of the code-fence marker lines emitted so far (each
fence push writes exactly one line containing only the fence marker). -/
structure RState where
  md : String
  inCode : Bool
  lastY : ℚ
  lastWasHeader : Bool
  fences : Nat
deriving DecidableEq, Repr

/-- Initial renderer state for a page. -/
def initRState : RState :=
  { md := "", inCode := false, lastY := -1, lastWasHeader := false, fences := 0 }

/-- A heading block type (`H1`–`H6`). -/
def isHeaderBlock : BlockType → Bool
  | BlockType.h1 | BlockType.h2 | BlockType.h3
  | BlockType.h4 | BlockType.h5 | BlockType.h6 => true
  | _ => false

/-- Every fragment of the line is Bold or BoldItalic (`all_bold`): such a
Code line is treated as a caption and rendered outside any fence. -/
def allBoldLine (l : LineItem) : Bool :=
  l.items.all (fun i => i.format = some WordFormat.bold || i.format = some WordFormat.boldItalic)

/-- The fence toggle of the renderer loop: entering code pushes an opening
fence line, leaving code pushes a closing fence line plus a blank line. -/
def fenceUpdate (st : RState) (isCode : Bool) : RState :=
  if isCode then
    if st.inCode then st
    else { st with md := st.md ++ "```\n", inCode := true, fences := st.fences + 1 }
  else if st.inCode then
    { st with md := st.md ++ "```\n\n", inCode := false, fences := st.fences + 1 }
  else st

/-- `"   ".repeat(level)`: the TOC indentation prefix. -/
def repeatStr (s : String) (n : Nat) : String :=
  String.join (List.replicate n s)

/-- `trim_matches(|c| c == '*' || c == '_')` on both ends. -/
def trimMarkers (s : String) : String :=
  let p := fun c => c = '*' || c = '_'
  String.mk (((s.toList.dropWhile p).reverse.dropWhile p).reverse)

/-- The line text used by the renderer: joined by single spaces for TOC and
Code lines, whitespace-normalized words otherwise. -/
def renderLineText (l : LineItem) : String :=
  match l.blockType with
  | BlockType.tocItem _ | BlockType.code =>
    strIntercalate " " (l.items.map (·.text))
  | _ =>
    strIntercalate " " (l.items.flatMap (fun i => splitWs i.text))

/-- `#`-prefix for a heading level. -/
def headerHashes : BlockType → String
  | BlockType.h1 => "#"
  | BlockType.h2 => "##"
  | BlockType.h3 => "###"
  | BlockType.h4 => "####"
  | BlockType.h5 => "#####"
  | _ => "######"

/-- The body text pushed for one line (the `match line.block_type` arm of
the renderer). -/
def bodyString (l : LineItem) : String :=
  let text := renderLineText l
  match l.blockType with
  | BlockType.h1 | BlockType.h2 | BlockType.h3
  | BlockType.h4 | BlockType.h5 | BlockType.h6 =>
    let clean := strReplace (strReplace text "**" "") "_" ""
    headerHashes l.blockType ++ " " ++ clean ++ "\n\n"
  | BlockType.listItem => "- " ++ text ++ "\n"
  | BlockType.tocItem level =>
    let clean := strReplace (strReplace text "**" "") "_" ""
    let normalized := strIntercalate " " (splitWs (strTrim clean))
    let startsWithNumber :=
      match (splitWs normalized).head? with
      | some firstWord =>
        firstWord.toList.all (fun c => c.isDigit || c = '.') && firstWord.toList.contains '.'
      | none => false
    if startsWithNumber then repeatStr "   " level ++ normalized ++ "\n"
    else repeatStr "   " level ++ "- " ++ normalized ++ "\n"
  | BlockType.code =>
    let cleanText := trimMarkers text
    let cleanText :=
      if strStartsWith cleanText "_" && strEndsWith cleanText "_" then
        String.mk (cleanText.toList.drop 1).dropLast
      else cleanText
    "\t" ++ cleanText ++ "\n"
  | _ => text ++ "\n"

/-- The paragraph-gap blank-line push that precedes a line's body (lines
51–58 of the renderer); it only touches the accumulated string. -/
def pushGap (mud : ℚ) (st : RState) (l : LineItem) : RState :=
  if decide (st.lastY > 0) && !st.lastWasHeader &&
      decide (|st.lastY - l.y| > mud * (6 / 5)) then
    { st with md := st.md ++ "\n" }
  else st

/-- The heading top-spacing push (lines 61–72 of the renderer); it only
touches the accumulated string. -/
def pushHeaderSpacing (st : RState) (l : LineItem) : RState :=
  if decide (st.lastY > 0) && isHeaderBlock l.blockType then
    if strEndsWith st.md "\n\n" then st
    else if strEndsWith st.md "\n" then { st with md := st.md ++ "\n" }
    else { st with md := st.md ++ "\n\n" }
  else st

/-- The paragraph-gap and heading-spacing pushes that precede a line's body
(lines 51–72 of the renderer). -/
def pushGapAndSpacing (mud : ℚ) (st : RState) (l : LineItem) : RState :=
  pushHeaderSpacing (pushGap mud st l) l

/-- One iteration of the renderer loop over a page item. -/
def renderStep (mud : ℚ) (st : RState) (item : ItemType) : RState :=
  match item with
  | ItemType.markdown _ => fenceUpdate st false
  | ItemType.textItem t =>
    let st := fenceUpdate st false
    { st with md := st.md ++ t.text ++ "\n", lastWasHeader := false }
  | ItemType.lineItem l =>
    let isCode := decide (l.blockType = BlockType.code) && !allBoldLine l
    let st := pushGapAndSpacing mud st l
    let st := { st with lastY := l.y }
    let st := fenceUpdate st isCode
    { st with md := st.md ++ bodyString l, lastWasHeader := isHeaderBlock l.blockType }

/-- The renderer loop over a page's items. -/
def renderLoop (mud : ℚ) (st : RState) : List ItemType → RState
  | [] => st
  | item :: rest => renderLoop mud (renderStep mud st item) rest

/-- The trailing push of the renderer: a fence left open after the page's
last item is closed. -/
def finishPage (st : RState) : RState :=
  if st.inCode then
    { st with md := st.md ++ "```\n\n", inCode := false, fences := st.fences + 1 }
  else st

/-- `ToMarkdown::transform` for one page: run the loop, then close a fence
left open by a trailing code line. -/
def renderPage (mud : ℚ) (items : List ItemType) : RState :=
  finishPage (renderLoop mud initRState items)

/-! ## Concrete instances used in closed checks -/

/-- A plain fragment with the given text and geometry. -/
def mkFrag (t : String) (x y w fs : ℚ) (font : String) : TextItem :=
  { text := t, x := x, y := y, width := w, height := fs, font := font,
    fontSize := fs, format := none }

/-- A paragraph line over plain zero-position words. -/
def mkLine (ws : List String) : LineItem :=
  { items := ws.map (fun t => mkFrag t 0 0 0 10 "F"), x := 0, y := 0,
    width := 0, height := 10, blockType := BlockType.paragraph }

/-- A synthetic TOC page: 10 lines, 8 of which end in a page number,
some behind dot-fill or emphasis markers. -/
def syntheticTocPage : List LineItem :=
  [mkLine ["Contents"],
   mkLine ["Chapter", "One", "......", "3"],
   mkLine ["Chapter", "Two", "......", "10"],
   mkLine ["Chapter", "Three", "15"],
   mkLine ["Chapter", "Four", "......", "21"],
   mkLine ["Chapter", "Five", "27"],
   mkLine ["Chapter", "Six", "....", "33**"],
   mkLine ["Chapter", "Seven", "41"],
   mkLine ["Chapter", "Eight", "45"],
   mkLine ["Notes"]]

/-- `"Hel"` fragment: width 10 ending at x = 10. -/
def helFrag : TextItem := mkFrag "Hel" 0 0 10 10 "F"

/-- `"lo"` fragment at a 3-unit gap behind `helFrag`. -/
def loFrag : TextItem := mkFrag "lo" 13 0 8 10 "F"

/-- `"Hello"` fragment: width 12 ending at x = 12. -/
def helloFrag : TextItem := mkFrag "Hello" 0 0 12 10 "F"

/-- `"world"` fragment at a 10-unit gap behind `helloFrag`. -/
def worldFrag : TextItem := mkFrag "world" 22 0 20 10 "F"

/-- A left fragment for the ordering check. -/
def wFragA : TextItem := mkFrag "left" 0 0 5 10 "F"

/-- A right fragment far beyond the space-merge threshold of `wFragA`. -/
def wFragB : TextItem := mkFrag "right" 40 0 5 10 "F"

/-- A paragraph line holding one fragment of the given font size. -/
def hLine (h : ℚ) : LineItem :=
  { items := [mkFrag "Heading" 0 0 5 h "F"], x := 0, y := 0, width := 5,
    height := h, blockType := BlockType.paragraph }

/-- Six heading-sized lines, giving a six-step ladder over a dominant size
of 10. -/
def ladderLines : List LineItem :=
  [hLine 70, hLine 60, hLine 50, hLine 40, hLine 30, hLine 20]

/-- A single `def foo():` line indented 6 units on a page whose margin
threshold is 2. -/
def defFooLine : LineItem :=
  { items := [mkFrag "def foo():" 6 0 50 10 "F"], x := 6, y := 0, width := 50,
    height := 10, blockType := BlockType.paragraph }

/-- Global stats with an empty emphasis map, for concrete checks. -/
def wGlobals : GlobalStats :=
  { mostUsedHeight := 10, mostUsedDistance := 12, mostUsedFont := "F",
    maxHeight := 10, fontToFormat := [] }

/-- The line the Compactor builds from `wFragB, wFragA`: sorted by `x`,
left unmerged by the 35-unit gap. -/
def wLine : LineItem :=
  { items := [wFragA, wFragB], x := 0, y := 0, width := 45, height := 10,
    blockType := BlockType.paragraph }

/-- Three pages sharing a bottom "Confidential Page N" band over distinct
bodies. -/
def confPages : List (List TextItem) :=
  [[mkFrag "Alpha" 0 10 5 10 "F", mkFrag "Confidential Page 1" 0 100 5 10 "F"],
   [mkFrag "Beta" 0 10 5 10 "F", mkFrag "Confidential Page 2" 0 100 5 10 "F"],
   [mkFrag "Gamma" 0 10 5 10 "F", mkFrag "Confidential Page 3" 0 100 5 10 "F"]]

instance : IsTotal TextItem (fun a b : TextItem => a.x ≤ b.x) :=
  ⟨fun a b => le_total a.x b.x⟩

instance : IsTrans TextItem (fun a b : TextItem => a.x ≤ b.x) :=
  ⟨fun _ _ _ h1 h2 => le_trans h1 h2⟩

/-- The boundary relation between consecutive raw groups: the head of the
next group exceeded the tolerance of the current group's head. -/
def groupBoundary (mud : ℚ) (g g' : List TextItem) : Prop :=
  ∀ x ∈ g.head?, ∀ x' ∈ g'.head?, |x.y - x'.y| > lineTolerance x mud

instance : IsTotal ℚ (fun a b : ℚ => b ≤ a) :=
  ⟨fun a b => le_total b a⟩

instance : IsTrans ℚ (fun a b : ℚ => b ≤ a) :=
  ⟨fun _ _ _ h1 h2 => le_trans h2 h1⟩

/-- Emitted fence lines plus one for a still-open fence: this quantity has
invariant parity across the renderer loop. -/
def fenceWeight (st : RState) : Nat :=
  st.fences + (if st.inCode then 1 else 0)

theorem fenceUpdate_weight (st : RState) (b : Bool) :
    fenceWeight (fenceUpdate st b) % 2 = fenceWeight st % 2 := by
  unfold fenceUpdate fenceWeight
  cases b <;> by_cases h : st.inCode <;> (simp [h]; try omega)

theorem pushGapAndSpacing_fences (mud : ℚ) (st : RState) (l : LineItem) :
    (pushGapAndSpacing mud st l).fences = st.fences ∧
      (pushGapAndSpacing mud st l).inCode = st.inCode := by
  unfold pushGapAndSpacing pushHeaderSpacing pushGap
  split <;> split <;> (try split) <;> (try split) <;> simp

theorem renderStep_weight (mud : ℚ) (st : RState) (item : ItemType) :
    fenceWeight (renderStep mud st item) % 2 = fenceWeight st % 2 := by
  cases item with
  | markdown s => simpa [renderStep] using fenceUpdate_weight st false
  | textItem t =>
    simp only [renderStep]
    rw [show fenceWeight { fenceUpdate st false with
          md := (fenceUpdate st false).md ++ t.text ++ "\n", lastWasHeader := false }
        = fenceWeight (fenceUpdate st false) from rfl]
    exact fenceUpdate_weight st false
  | lineItem l =>
    simp only [renderStep]
    set st₁ := pushGapAndSpacing mud st l with hst₁
    set isCode := decide (l.blockType = BlockType.code) && !allBoldLine l
    have h₁ : fenceWeight { st₁ with lastY := l.y } = fenceWeight st₁ := rfl
    have h₂ : fenceWeight st₁ = fenceWeight st := by
      have := pushGapAndSpacing_fences mud st l
      unfold fenceWeight
      rw [← hst₁] at this
      rw [this.1, this.2]
    have h₃ := fenceUpdate_weight { st₁ with lastY := l.y } isCode
    calc fenceWeight { fenceUpdate { st₁ with lastY := l.y } isCode with
            md := (fenceUpdate { st₁ with lastY := l.y } isCode).md ++ bodyString l,
            lastWasHeader := isHeaderBlock l.blockType } % 2
        = fenceWeight (fenceUpdate { st₁ with lastY := l.y } isCode) % 2 := rfl
      _ = fenceWeight { st₁ with lastY := l.y } % 2 := h₃
      _ = fenceWeight st % 2 := by rw [h₁, h₂]

theorem renderLoop_weight (mud : ℚ) :
    ∀ (items : List ItemType) (st : RState),
      fenceWeight (renderLoop mud st items) % 2 = fenceWeight st % 2 := by
  intro items
  induction items with
  | nil => intro st; rfl
  | cons item rest ih =>
    intro st
    rw [renderLoop, ih (renderStep mud st item), renderStep_weight]

/-- C10: the Markdown produced for a page always has balanced code fences:
every fence line the renderer opens is matched by a closing fence line in
the same page's output — a fence still open after the page's last line is
closed by the trailing push — so the number of fence marker lines emitted
into the per-page string is even (and the final fence state is closed). -/
theorem toMarkdown_fences_balanced (mud : ℚ) (items : List ItemType) :
    Even ((renderPage mud items).fences) ∧ (renderPage mud items).inCode = false := by
  unfold renderPage finishPage
  have h := renderLoop_weight mud items initRState
  have h0 : fenceWeight initRState % 2 = 0 := rfl
  rw [h0] at h
  set st := renderLoop mud initRState items with hst
  by_cases hc : st.inCode
  · rw [if_pos hc]
    refine ⟨Nat.even_iff.mpr ?_, rfl⟩
    have hw : fenceWeight st = st.fences + 1 := by simp [fenceWeight, hc]
    simp only [hw] at h
    exact h
  · rw [if_neg hc]
    refine ⟨Nat.even_iff.mpr ?_, by simpa using hc⟩
    have hw : fenceWeight st = st.fences := by simp [fenceWeight, hc]
    simp only [hw] at h
    exact h

/-! ## C8: the font → emphasis map -/

theorem lookupFormat_append (a b : FontFormatMap) (f : String) :
    lookupFormat (a ++ b) f =
      match lookupFormat a f with
      | some v => some v
      | none => lookupFormat b f := by
  unfold lookupFormat
  rw [List.find?_append]
  cases h : List.find? (fun p => decide (p.1 = f)) a <;> simp [h]

theorem buildFontToFormat_go (mostUsedFont maxHeightFont : String) :
    ∀ (fonts : List String) (acc : FontFormatMap),
      (∀ p ∈ acc, classifyFont mostUsedFont maxHeightFont p.1 = some p.2) →
      ∀ f : String,
        lookupFormat
            (fonts.foldl
              (fun acc g =>
                match classifyFont mostUsedFont maxHeightFont g with
                | some fmt => acc ++ [(g, fmt)]
                | none => acc)
              acc) f =
          match lookupFormat acc f with
          | some v => some v
          | none =>
            if f ∈ fonts then classifyFont mostUsedFont maxHeightFont f else none := by
  intro fonts
  induction fonts with
  | nil =>
    intro acc _ f
    simp only [List.foldl_nil, List.not_mem_nil, if_false]
    cases lookupFormat acc f <;> rfl
  | cons g gs ih =>
    intro acc hacc f
    simp only [List.foldl_cons]
    cases hg : classifyFont mostUsedFont maxHeightFont g with
    | none =>
      rw [ih acc hacc f]
      cases hl : lookupFormat acc f
      · by_cases hfg : f = g
        · subst hfg
          by_cases hmem : f ∈ gs <;> simp [hmem, hg]
        · simp [List.mem_cons, hfg]
      · rfl
    | some fmt =>
      have hacc' : ∀ p ∈ acc ++ [(g, fmt)],
          classifyFont mostUsedFont maxHeightFont p.1 = some p.2 := by
        intro p hp
        rcases List.mem_append.mp hp with h | h
        · exact hacc p h
        · simp only [List.mem_singleton] at h
          subst h
          exact hg
      rw [ih (acc ++ [(g, fmt)]) hacc' f, lookupFormat_append]
      cases hl : lookupFormat acc f
      · have hsingle : lookupFormat [(g, fmt)] f =
            if f = g then some fmt else none := by
          unfold lookupFormat
          by_cases hfg : g = f <;> simp [List.find?, hfg]
          simp [Ne.symm hfg]
        rw [hsingle]
        by_cases hfg : f = g
        · subst hfg
          by_cases hmem : f ∈ gs <;> simp [hmem, hg]
        · simp only [if_neg hfg]
          simp [List.mem_cons, hfg]
      · rfl

/-- C8: in the font → emphasis map built by the Typography Profiler, every
counted font looks up to its cascade classification and uncounted fonts are
absent; the dominant font is never assigned an emphasis regardless of its
name; among the other counted fonts, a name matching both bold and italic
tokens gets BoldItalic, a name matching bold tokens — or the max-height
font — gets Bold (when not both bold and italic), and a name matching only
italic tokens (and not the max-height font) gets Italic. -/
theorem fontToFormat_emphasis_classification
    (mostUsedFont maxHeightFont : String) (fonts : List String) (f : String) :
    (lookupFormat (buildFontToFormat mostUsedFont maxHeightFont fonts) f =
      if f ∈ fonts then classifyFont mostUsedFont maxHeightFont f else none) ∧
    classifyFont mostUsedFont maxHeightFont mostUsedFont = none ∧
    (f ≠ mostUsedFont → fontNameIsBold (strToLower f) = true → fontNameIsItalic (strToLower f) = true →
      classifyFont mostUsedFont maxHeightFont f = some WordFormat.boldItalic) ∧
    (f ≠ mostUsedFont → ¬(fontNameIsBold (strToLower f) = true ∧ fontNameIsItalic (strToLower f) = true) →
      (fontNameIsBold (strToLower f) = true ∨ f = maxHeightFont) →
      classifyFont mostUsedFont maxHeightFont f = some WordFormat.bold) ∧
    (f ≠ mostUsedFont → fontNameIsBold (strToLower f) = false → f ≠ maxHeightFont →
      fontNameIsItalic (strToLower f) = true →
      classifyFont mostUsedFont maxHeightFont f = some WordFormat.italic) := by
  refine ⟨?_, ?_, ?_, ?_, ?_⟩
  · have h := buildFontToFormat_go mostUsedFont maxHeightFont fonts [] (by simp) f
    unfold buildFontToFormat
    rw [h]
    rfl
  · unfold classifyFont
    simp
  · intro hne hb hi
    unfold classifyFont
    simp [hne, hb, hi]
  · intro hne hbi hbold
    unfold classifyFont
    rcases hbold with hb | hmax
    · have hi : fontNameIsItalic (strToLower f) = false := by
        cases hcase : fontNameIsItalic (strToLower f)
        · rfl
        · exact absurd ⟨hb, hcase⟩ hbi
      simp [hne, hb, hi]
    · subst hmax
      cases hb : fontNameIsBold (strToLower f)
      · simp [hne, hb]
      · have hi : fontNameIsItalic (strToLower f) = false := by
          cases hcase : fontNameIsItalic (strToLower f)
          · rfl
          · exact absurd ⟨hb, hcase⟩ hbi
        simp [hne, hb, hi]
  · intro hne hb hmax hi
    unfold classifyFont
    simp [hne, hb, hi, hmax]

/-- Concrete check of C8: a bold-italic styled font, a bold font and the
dominant font of a small font table get the classifications the claim
describes. -/
theorem fontToFormat_emphasis_classification_witness :
    lookupFormat (buildFontToFormat "Body" "Big" ["Body", "Slab-BoldItalic"])
        "Slab-BoldItalic" = some WordFormat.boldItalic ∧
      lookupFormat (buildFontToFormat "Body" "Big" ["Body", "Slab-BoldItalic"]) "Body" = none := by
  constructor
  · have h := fontToFormat_emphasis_classification "Body" "Big"
      ["Body", "Slab-BoldItalic"] "Slab-BoldItalic"
    rw [h.1, if_pos (by decide)]
    exact h.2.2.1 (by decide) (by decide) (by decide)
  · have h := fontToFormat_emphasis_classification "Body" "Big"
      ["Body", "Slab-BoldItalic"] "Body"
    rw [h.1, if_pos (by decide)]
    exact h.2.1

/-! ## C4: fingerprint invariance of the Repetition Pruner -/

/-- C4 counterexample: the band texts `"1"` and `" "` differ only by a
digit substring and whitespace, yet their fingerprints differ — the
whitespace-only text takes the sentinel `0` branch of `hash_string` while
the digits-only text hashes the empty normalized string. -/
theorem hash_fingerprint_invariance_counterexample :
    differsOnlyByDigitsWhitespaceCase "1" " " ∧ hashString "1" ≠ hashString " " := by
  constructor
  · decide
  · decide

/-- C4 (amended): the fingerprints of two band texts that differ only by
digit substrings, whitespace, or letter case are equal, provided the two
texts are both whitespace-only or both not whitespace-only (a
whitespace-only text is fingerprinted by the sentinel, not by a hash). -/
theorem hash_fingerprint_invariance (s1 s2 : String)
    (hdiff : differsOnlyByDigitsWhitespaceCase s1 s2)
    (hws : strTrim s1 = "" ↔ strTrim s2 = "") :
    hashString s1 = hashString s2 := by
  unfold hashString
  by_cases h1 : strTrim s1 = ""
  · rw [if_pos h1, if_pos (hws.mp h1)]
  · rw [if_neg h1, if_neg (fun h2 => h1 (hws.mpr h2))]
    unfold normalizeForHash
    unfold differsOnlyByDigitsWhitespaceCase at hdiff
    rw [show s1.toList = s1.data from rfl, show s2.toList = s2.data from rfl, hdiff]

/-- Concrete check of C4 (amended): the running footers `"Page 12"` and
`"Page 13"` get the same fingerprint. -/
theorem hash_fingerprint_invariance_witness :
    hashString "Page 12" = hashString "Page 13" :=
  hash_fingerprint_invariance "Page 12" "Page 13" (by decide) (by decide)

/-! ## C6: TOC page qualification -/

/-- C6: only the first 20 pages are evaluated by the TOC detector; a page
among them qualifies exactly when its `tocQualifies` test holds, and that
test holds exactly when strictly more than 75% of the page's lines end in
a trailing page number (after dropping dot-fill words and trailing
Markdown emphasis markers). -/
theorem detectTOC_qualification :
    (∀ (pages : List (List LineItem)) (i : Nat), i ∈ tocPageIndices pages → i < 20) ∧
    (∀ (pages : List (List LineItem)) (i : Nat) (p : List LineItem),
      pages[i]? = some p → i < 20 →
      (i ∈ tocPageIndices pages ↔ tocQualifies p = true)) ∧
    (∀ lines : List LineItem,
      tocQualifies lines = true ↔
        3 * lines.length < 4 * (lines.filter lineEndsWithDigit).length) := by
  have henumtake : ∀ (pages : List (List LineItem)) (j : Nat) (q : List LineItem),
      (j, q) ∈ pages.enum.take 20 ↔ j < 20 ∧ pages[j]? = some q := by
    intro pages j q
    constructor
    · intro h
      rcases List.mem_iff_getElem?.mp h with ⟨k, hk⟩
      rw [List.getElem?_take] at hk
      by_cases hklt : k < 20
      · rw [if_pos hklt, List.getElem?_enum] at hk
        cases hl : pages[k]? with
        | none => rw [hl] at hk; simp at hk
        | some q' =>
          rw [hl] at hk
          simp only [Option.map_some', Option.some.injEq, Prod.mk.injEq] at hk
          rcases hk with ⟨hkj, hq'⟩
          subst hkj
          subst hq'
          exact ⟨hklt, hl⟩
      · rw [if_neg hklt] at hk
        simp at hk
    · rintro ⟨hlt, hget⟩
      refine List.mem_iff_getElem?.mpr ⟨j, ?_⟩
      rw [List.getElem?_take, if_pos hlt, List.getElem?_enum, hget]
      rfl
  have hmem : ∀ (pages : List (List LineItem)) (i : Nat),
      i ∈ tocPageIndices pages ↔
        ∃ p, pages[i]? = some p ∧ i < 20 ∧ tocQualifies p = true := by
    intro pages i
    unfold tocPageIndices
    rw [List.mem_filterMap]
    constructor
    · rintro ⟨⟨j, q⟩, hmemjq, hf⟩
      dsimp only at hf
      by_cases hq : tocQualifies q = true
      · rw [if_pos hq] at hf
        have hji : j = i := Option.some.inj hf
        subst hji
        rcases (henumtake pages j q).mp hmemjq with ⟨hlt, hget⟩
        exact ⟨q, hget, hlt, hq⟩
      · rw [if_neg hq] at hf
        exact absurd hf (by simp)
    · rintro ⟨p, hget, hlt, hq⟩
      exact ⟨(i, p), (henumtake pages i p).mpr ⟨hlt, hget⟩, by simp [hq]⟩
  have hratio : ∀ lines : List LineItem,
      tocQualifies lines = true ↔
        3 * lines.length < 4 * (lines.filter lineEndsWithDigit).length := by
    intro lines
    unfold tocQualifies
    set n := lines.length with hn
    set w := (lines.filter lineEndsWithDigit).length with hw
    simp only [Bool.and_eq_true, decide_eq_true_eq]
    constructor
    · rintro ⟨hpos, hgt⟩
      have hn0 : (0 : ℚ) < (n : ℚ) := by exact_mod_cast hpos
      rw [lt_div_iff₀ hn0] at hgt
      have h100 : (75 : ℚ) * n < 100 * w := by linarith
      have : 75 * n < 100 * w := by exact_mod_cast h100
      omega
    · intro h
      have hw_le : w ≤ n := by
        simpa [hn, hw] using List.length_filter_le lineEndsWithDigit lines
      have hpos : 0 < n := by omega
      refine ⟨hpos, ?_⟩
      have hn0 : (0 : ℚ) < (n : ℚ) := by exact_mod_cast hpos
      rw [lt_div_iff₀ hn0]
      have h' : 75 * n < 100 * w := by omega
      have h100 : (75 : ℚ) * n < 100 * w := by exact_mod_cast h'
      linarith
  refine ⟨?_, ?_, hratio⟩
  · intro pages i hi
    rcases (hmem pages i).mp hi with ⟨p, _, hlt, _⟩
    exact hlt
  · intro pages i p hget hlt
    rw [hmem pages i]
    constructor
    · rintro ⟨q, hgetq, _, hq⟩
      rw [hget] at hgetq
      exact Option.some.inj hgetq ▸ hq
    · intro hq
      exact ⟨p, hget, hlt, hq⟩

/-- Concrete check of C6: the synthetic page with 8 page-number lines out
of 10 qualifies (80% > 75%) and is reported as TOC page 0. -/
theorem detectTOC_qualification_witness :
    tocQualifies syntheticTocPage = true ∧ 0 ∈ tocPageIndices [syntheticTocPage] := by
  have h := detectTOC_qualification
  have hq : tocQualifies syntheticTocPage = true :=
    (h.2.2 syntheticTocPage).mpr (by decide)
  exact ⟨hq, (h.2.1 [syntheticTocPage] 0 syntheticTocPage rfl (by decide)).mpr hq⟩

/-! ## C3: the horizontal merge cases -/

/-- C3: one step of the horizontal merge.  With equal font names, a gap of
at most 5 units glues the texts with no separator; a gap of at most
max(2 × running font size, 30) merges with a single space, suppressed for
closing/opening punctuation; a larger gap — or different fonts — flushes
the running fragment and starts the walked fragment as the new running
fragment. -/
theorem compactLines_horizontal_merge (a b : TextItem) (rest : List TextItem) :
    (b.font = a.font →
      (b.x - (a.x + a.width) ≤ 5 →
        mergeLoop a (b :: rest) = mergeLoop (glueMerge a b) rest) ∧
      (¬b.x - (a.x + a.width) ≤ 5 → b.x - (a.x + a.width) ≤ max (a.fontSize * 2) 30 →
        mergeLoop a (b :: rest) = mergeLoop (spaceMerge a b) rest) ∧
      (¬b.x - (a.x + a.width) ≤ max (a.fontSize * 2) 30 →
        mergeLoop a (b :: rest) = a :: mergeLoop b rest)) ∧
    (b.font ≠ a.font → mergeLoop a (b :: rest) = a :: mergeLoop b rest) ∧
    (glueMerge a b).text = a.text ++ b.text ∧
    (spaceMerge a b).text =
      a.text ++
        (if startsWithClosingPunct b.text || endsWithOpeningPunct a.text then "" else " ") ++
        b.text := by
  refine ⟨fun hfont => ⟨?_, ?_, ?_⟩, fun hfont => ?_, rfl, rfl⟩
  · intro h5
    simp only [mergeLoop]
    rw [if_pos ⟨h5, hfont⟩]
  · intro h5 hsp
    simp only [mergeLoop]
    rw [if_neg (fun hc => h5 hc.1), if_pos ⟨hsp, hfont⟩]
  · intro hsp
    have h5 : ¬b.x - (a.x + a.width) ≤ 5 := fun h =>
      hsp (le_trans h (le_trans (by norm_num) (le_max_right (a.fontSize * 2) 30)))
    simp only [mergeLoop]
    rw [if_neg (fun hc => h5 hc.1), if_neg (fun hc => hsp hc.1)]
  · simp only [mergeLoop]
    rw [if_neg (fun hc => hfont hc.2), if_neg (fun hc => hfont hc.2)]

/-- Concrete check of C3: `"Hel"` + `"lo"` at a 3-unit gap glue to
`"Hello"`; `"Hello"` + `"world"` at a 10-unit gap merge to
`"Hello world"` with exactly one inserted space. -/
theorem compactLines_horizontal_merge_witness :
    mergeTextItems [helFrag, loFrag] = [glueMerge helFrag loFrag] ∧
    (glueMerge helFrag loFrag).text = "Hello" ∧
    mergeTextItems [helloFrag, worldFrag] = [spaceMerge helloFrag worldFrag] ∧
    (spaceMerge helloFrag worldFrag).text = "Hello world" := by
  refine ⟨?_, by decide, ?_, by decide⟩
  · show mergeLoop helFrag [loFrag] = [glueMerge helFrag loFrag]
    rw [((compactLines_horizontal_merge helFrag loFrag []).1 (by decide)).1
      (by norm_num [loFrag, helFrag, mkFrag])]
    rfl
  · show mergeLoop helloFrag [worldFrag] = [spaceMerge helloFrag worldFrag]
    rw [((compactLines_horizontal_merge helloFrag worldFrag []).1 (by decide)).2.1
      (by norm_num [worldFrag, helloFrag, mkFrag]) (by norm_num [worldFrag, helloFrag, mkFrag])]
    rfl

/-! ## C9: fragments of every compacted line are ordered by ascending x -/

theorem sortLineByX_sorted (line : List TextItem) :
    List.Sorted (fun a b : TextItem => a.x ≤ b.x) (sortLineByX line) :=
  List.sorted_insertionSort (fun a b : TextItem => a.x ≤ b.x) line

theorem applyFormat_x (m : FontFormatMap) (i : TextItem) :
    (applyFormat m i).x = i.x := by
  unfold applyFormat
  cases lookupFormat m i.font with
  | none => rfl
  | some fmt => by_cases h : strTrim i.text = "" <;> simp [h]

theorem glueMerge_x (a b : TextItem) : (glueMerge a b).x = a.x := rfl

theorem spaceMerge_x (a b : TextItem) : (spaceMerge a b).x = a.x := rfl

theorem mergeLoop_head_x :
    ∀ (rest : List TextItem) (cur : TextItem),
      ∃ h t, mergeLoop cur rest = h :: t ∧ h.x = cur.x := by
  intro rest
  induction rest with
  | nil => intro cur; exact ⟨cur, [], rfl, rfl⟩
  | cons b rest ih =>
    intro cur
    simp only [mergeLoop]
    split
    · rcases ih (glueMerge cur b) with ⟨h, t, heq, hx⟩
      exact ⟨h, t, heq, by rw [hx, glueMerge_x]⟩
    · split
      · rcases ih (spaceMerge cur b) with ⟨h, t, heq, hx⟩
        exact ⟨h, t, heq, by rw [hx, spaceMerge_x]⟩
      · exact ⟨cur, mergeLoop b rest, rfl, rfl⟩

theorem mergeLoop_chain :
    ∀ (rest : List TextItem) (cur : TextItem),
      List.Chain' (fun p q : TextItem => p.x ≤ q.x) (cur :: rest) →
      List.Chain' (fun p q : TextItem => p.x ≤ q.x) (mergeLoop cur rest) := by
  intro rest
  induction rest with
  | nil => intro cur _; simp [mergeLoop]
  | cons b rest ih =>
    intro cur hchain
    rw [List.chain'_cons] at hchain
    obtain ⟨hcb, hbr⟩ := hchain
    have hmerged : ∀ m : TextItem, m.x = cur.x →
        List.Chain' (fun p q : TextItem => p.x ≤ q.x) (m :: rest) := by
      intro m hmx
      cases rest with
      | nil => simp
      | cons r rs =>
        rw [List.chain'_cons] at hbr ⊢
        exact ⟨by rw [hmx]; exact le_trans hcb hbr.1, hbr.2⟩
    simp only [mergeLoop]
    split
    · exact ih (glueMerge cur b) (hmerged (glueMerge cur b) (glueMerge_x cur b))
    · split
      · exact ih (spaceMerge cur b) (hmerged (spaceMerge cur b) (spaceMerge_x cur b))
      · rcases mergeLoop_head_x rest b with ⟨h, t, heq, hx⟩
        rw [heq, List.chain'_cons]
        refine ⟨by rw [hx]; exact hcb, ?_⟩
        rw [← heq]
        exact ih b hbr

/-- C9: every line produced by the Line Compactor carries its merged
fragments in non-decreasing `x` order, and the ordering is already
established before the horizontal merge: every vertical group is sorted
ascending by `x` when handed to `create_line_item`. -/
theorem compactLines_fragments_sorted_by_x (items : List TextItem) (mud : ℚ)
    (globals : GlobalStats) (line : LineItem)
    (hline : line ∈ compactPage items mud globals) :
    List.Chain' (fun p q : TextItem => p.x ≤ q.x) line.items ∧
      ∀ g ∈ groupItemsByLine items mud,
        List.Sorted (fun a b : TextItem => a.x ≤ b.x) g := by
  have hsorted : ∀ g ∈ groupItemsByLine items mud,
      List.Sorted (fun a b : TextItem => a.x ≤ b.x) g := by
    intro g hg
    unfold groupItemsByLine at hg
    rcases List.mem_map.mp hg with ⟨raw, _, hraw⟩
    rw [← hraw]
    exact sortLineByX_sorted raw
  refine ⟨?_, hsorted⟩
  rcases List.mem_filterMap.mp hline with ⟨g, hg, hcreate⟩
  have hgsorted := hsorted g hg
  unfold createLineItem at hcreate
  rcases hmerge : mergeTextItems g with _ | ⟨m, ms⟩
  · rw [hmerge] at hcreate
    exact absurd hcreate (by simp)
  · rw [hmerge] at hcreate
    simp only [Option.some.injEq] at hcreate
    have hitems : line.items = (m :: ms).map (applyFormat globals.fontToFormat) := by
      rw [← hcreate]
    rw [hitems]
    have hmergedchain : List.Chain' (fun p q : TextItem => p.x ≤ q.x) (m :: ms) := by
      rw [← hmerge]
      cases g with
      | nil => simp [mergeTextItems]
      | cons a grest =>
        show List.Chain' _ (mergeLoop a grest)
        exact mergeLoop_chain grest a (List.Pairwise.chain' hgsorted)
    rw [List.chain'_map]
    refine hmergedchain.imp ?_
    intro p q hpq
    rw [applyFormat_x, applyFormat_x]
    exact hpq

/-- Concrete check of C9: two fragments given in reversed order and too far
apart to merge come out as one line with fragments ordered by `x`. -/
theorem compactLines_fragments_sorted_by_x_witness :
    List.Chain' (fun p q : TextItem => p.x ≤ q.x) wLine.items := by
  have hcomp : compactPage [wFragB, wFragA] 12 wGlobals = [wLine] := by
    norm_num [compactPage, groupItemsByLine, groupRaw, groupGo, lineTolerance, sortLineByX,
      List.insertionSort, List.orderedInsert, createLineItem, mergeTextItems, mergeLoop,
      glueMerge, spaceMerge, applyFormat, lookupFormat, wFragA, wFragB, mkFrag, wGlobals,
      wLine, List.filterMap_cons, List.getLast?, max_def]
  exact (compactLines_fragments_sorted_by_x [wFragB, wFragA] 12 wGlobals wLine
    (by rw [hcomp]; simp)).1

/-! ## C7: code-candidate runs -/

theorem finishRun_eq (ind : LineItem → Bool) (run : List LineItem) :
    finishRun ind run =
      if 2 ≤ run.length then List.replicate run.length true else run.map ind := by
  unfold finishRun
  split
  · rw [List.map_const']
  · rfl

theorem finishRun_length (ind : LineItem → Bool) (run : List LineItem) :
    (finishRun ind run).length = run.length := by
  rw [finishRun_eq]
  split <;> simp

theorem markGo_run (cand ind : LineItem → Bool) :
    ∀ (run post acc : List LineItem),
      (∀ l ∈ run, cand l = true) →
      (∀ l, post.head? = some l → cand l = false) →
      markGo cand ind acc (run ++ post) =
        finishRun ind (acc ++ run) ++
          (match post with
           | [] => []
           | _ :: ps => false :: markGo cand ind [] ps) := by
  intro run
  induction run with
  | nil =>
    intro post acc _ hpost
    cases post with
    | nil => simp [markGo]
    | cons p ps =>
      have hp : cand p = false := hpost p rfl
      simp [markGo, hp]
  | cons r rs ih =>
    intro post acc hrun hpost
    have hr : cand r = true := hrun r (List.mem_cons_self r rs)
    have hrs : ∀ l ∈ rs, cand l = true := fun l hl => hrun l (List.mem_cons_of_mem r hl)
    simp only [List.cons_append, markGo, hr, if_true]
    have hstep := ih post (acc ++ [r]) hrs hpost
    simp only [List.append_eq] at hstep ⊢
    rw [hstep]
    simp

theorem markGo_decompose (cand ind : LineItem → Bool) :
    ∀ (pre acc run post : List LineItem),
      (∀ l ∈ run, cand l = true) →
      (pre = [] → acc = []) →
      (∀ l, pre.getLast? = some l → cand l = false) →
      (∀ l, post.head? = some l → cand l = false) →
      ((markGo cand ind acc (pre ++ run ++ post)).drop (acc.length + pre.length)).take
          run.length =
        if 2 ≤ run.length then List.replicate run.length true else run.map ind := by
  intro pre
  induction pre with
  | nil =>
    intro acc run post hrun hacc _ hpost
    rw [hacc rfl]
    simp only [List.nil_append, List.length_nil, Nat.add_zero, List.drop_zero]
    rw [markGo_run cand ind run post [] hrun hpost]
    simp only [List.nil_append]
    rw [List.take_left' (finishRun_length ind run), finishRun_eq]
  | cons p pre' ih =>
    intro acc run post hrun _ hpre hpost
    cases hp : cand p with
    | true =>
      cases pre' with
      | nil =>
        have hlast : cand p = false := hpre p rfl
        rw [hp] at hlast
        exact absurd hlast (by simp)
      | cons q qs =>
        have hpre' : ∀ l, (q :: qs).getLast? = some l → cand l = false := by
          intro l hl
          exact hpre l (by rwa [List.getLast?_cons_cons])
        have hstep := ih (acc ++ [p]) run post hrun (by simp) hpre' hpost
        have hidx : (acc ++ [p]).length + (q :: qs).length =
            acc.length + (p :: q :: qs).length := by
          simp only [List.length_append, List.length_cons, List.length_nil]
          omega
        rw [hidx] at hstep
        simp only [List.cons_append, markGo, hp, if_true] at hstep ⊢
        simp only [List.append_eq] at hstep ⊢
        exact hstep
    | false =>
      have hpre' : ∀ l, pre'.getLast? = some l → cand l = false := by
        intro l hl
        cases pre' with
        | nil => simp at hl
        | cons q qs => exact hpre l (by rwa [List.getLast?_cons_cons])
      have hstep := ih [] run post hrun (fun _ => rfl) hpre' hpost
      simp only [List.length_nil, Nat.zero_add] at hstep
      simp only [List.cons_append, markGo, hp, Bool.false_eq_true, if_false]
      simp only [List.append_eq] at hstep ⊢
      have hdrop : (finishRun ind acc ++
            false :: markGo cand ind [] (pre' ++ run ++ post)).drop
              (acc.length + (p :: pre').length) =
          (markGo cand ind [] (pre' ++ run ++ post)).drop pre'.length := by
        have h1 : acc.length + (p :: pre').length =
            (finishRun ind acc).length + (pre'.length + 1) := by
          rw [finishRun_length, List.length_cons]
        rw [h1, ← List.drop_drop, List.drop_left, List.drop_succ_cons]
      simp only [List.append_eq] at hdrop
      rw [hdrop]
      exact hstep

/-- C7: for a maximal run of consecutive code-candidate lines on a page,
the candidate pass marks every member of a run of two or more lines as
code, and marks a singleton run only by its strong explicit-code-indicator
test; non-candidate boundary lines are unmarked. -/
theorem detectCodeBlocks_runs (mostUsedHeight indentThreshold : ℚ)
    (pre run post : List LineItem)
    (hrun : ∀ l ∈ run, looksLikeCode mostUsedHeight indentThreshold l = true)
    (hpre : ∀ l, pre.getLast? = some l →
      looksLikeCode mostUsedHeight indentThreshold l = false)
    (hpost : ∀ l, post.head? = some l →
      looksLikeCode mostUsedHeight indentThreshold l = false) :
    ((codeFlags mostUsedHeight indentThreshold (pre ++ run ++ post)).drop pre.length).take
        run.length =
      if 2 ≤ run.length then List.replicate run.length true
      else run.map lineHasIndicators := by
  have h := markGo_decompose (looksLikeCode mostUsedHeight indentThreshold) lineHasIndicators
    pre [] run post hrun (fun _ => rfl) hpre hpost
  simpa [codeFlags] using h

theorem defFooLine_is_candidate : looksLikeCode 10 2 defFooLine = true := by
  have hh : isLikelyHeaderLine 10 defFooLine = false := by
    have hht : ¬(defFooLine.height > (10 : ℚ) + 1) := by norm_num [defFooLine, mkFrag]
    simp only [isLikelyHeaderLine, decide_eq_false hht, Bool.false_or]
    decide
  simp only [looksLikeCode, hh, Bool.not_false, Bool.true_and]
  rw [show hasExplicitCodeIndicators (lineText defFooLine)
      (strToLower (lineText defFooLine)) = true from by decide]
  simp only [Bool.or_true, Bool.and_true]
  decide

/-- Concrete check of C7: a lone indented `def foo():` line forms a
singleton candidate run and is marked code through its explicit `def `
indicator. -/
theorem detectCodeBlocks_runs_witness :
    ((codeFlags 10 2 [defFooLine]).drop 0).take 1 = [true] ∧
      lineHasIndicators defFooLine = true := by
  have h := detectCodeBlocks_runs 10 2 [] [defFooLine] []
    (by
      intro l hl
      rw [List.mem_singleton] at hl
      rw [hl]
      exact defFooLine_is_candidate)
    (by intro l hl; simp at hl)
    (by intro l hl; simp at hl)
  constructor
  · simpa using h.trans (by decide)
  · decide

/-! ## C1: the vertical grouping boundary -/

theorem groupGo_spec (mud : ℚ) :
    ∀ (rest : List TextItem) (f : TextItem) (cs : List TextItem),
      ∃ w gs',
        groupGo mud (f :: cs) rest = (f :: (cs ++ w)) :: gs' ∧
        (∀ a ∈ w, |f.y - a.y| ≤ lineTolerance f mud) ∧
        ((f :: (cs ++ w)) :: gs').flatten = (f :: cs) ++ rest ∧
        (∀ g ∈ gs', ∃ f' t, g = f' :: t ∧
          ∀ a ∈ t, |f'.y - a.y| ≤ lineTolerance f' mud) ∧
        List.Chain' (groupBoundary mud) ((f :: (cs ++ w)) :: gs') := by
  intro rest
  induction rest with
  | nil =>
    intro f cs
    refine ⟨[], [], by simp [groupGo], by simp, by simp, by simp, by simp⟩
  | cons item rest' ih =>
    intro f cs
    by_cases hex : |f.y - item.y| > lineTolerance f mud
    · rcases ih item [] with ⟨w, gs', heq, hwithin, hjoin, hgs, hchain⟩
      simp only [List.nil_append] at heq hjoin hchain
      refine ⟨[], (item :: w) :: gs', ?_, by simp, ?_, ?_, ?_⟩
      · simp only [groupGo]
        rw [if_pos hex, heq]
        simp
      · simp only [List.flatten_cons] at hjoin ⊢
        simp only [List.append_nil, List.cons_append, List.append_assoc,
          List.singleton_append] at hjoin ⊢
        rw [hjoin]
        simp
      · intro g hg
        rcases List.mem_cons.mp hg with hg | hg
        · exact ⟨item, w, hg, hwithin⟩
        · exact hgs g hg
      · rw [List.chain'_cons]
        refine ⟨?_, hchain⟩
        intro x hx x' hx'
        simp only [List.head?_cons, Option.mem_def, Option.some.injEq] at hx hx'
        subst hx
        subst hx'
        simpa using hex
    · rcases ih f (cs ++ [item]) with ⟨w, gs', heq, hwithin, hjoin, hgs, hchain⟩
      refine ⟨item :: w, gs', ?_, ?_, ?_, hgs, ?_⟩
      · simp only [groupGo]
        rw [if_neg hex]
        simp only [List.cons_append, List.append_assoc, List.singleton_append] at heq ⊢
        exact heq
      · intro a ha
        rcases List.mem_cons.mp ha with ha | ha
        · subst ha
          exact not_lt.mp hex
        · exact hwithin a ha
      · simp only [List.flatten_cons] at hjoin ⊢
        simp only [List.cons_append, List.append_assoc, List.singleton_append] at hjoin ⊢
        exact hjoin
      · have hrw : cs ++ item :: w = (cs ++ [item]) ++ w := by simp
        rw [hrw]
        exact hchain

/-- C1: the vertical grouping of the Line Compactor starts a new line
exactly when the walked fragment's vertical distance to the current line's
first fragment exceeds the tolerance (0.8 × that fragment's font size when
positive, the dominant line distance as fallback): the raw groups
concatenate back to the input in walk order, every non-head member of a
group is within the tolerance of its group's head, and each group's head
exceeds the tolerance of the previous group's head; the final grouping is
the raw one with each line sorted by `x`. -/
theorem compactLines_vertical_grouping (mud : ℚ) (items : List TextItem) :
    groupItemsByLine items mud = (groupRaw mud items).map sortLineByX ∧
    (groupRaw mud items).flatten = items ∧
    (∀ g ∈ groupRaw mud items, ∃ f t, g = f :: t ∧
      ∀ a ∈ t, |f.y - a.y| ≤ lineTolerance f mud) ∧
    List.Chain' (groupBoundary mud) (groupRaw mud items) := by
  cases items with
  | nil =>
    exact ⟨rfl, by simp [groupRaw, groupGo], by simp [groupRaw, groupGo],
      by simp [groupRaw, groupGo]⟩
  | cons i rest =>
    rcases groupGo_spec mud rest i [] with ⟨w, gs', heq, hwithin, hjoin, hgs, hchain⟩
    simp only [List.nil_append] at heq hjoin hchain
    have hraw : groupRaw mud (i :: rest) = (i :: w) :: gs' := by
      unfold groupRaw
      rw [show groupGo mud [] (i :: rest) = groupGo mud [i] rest from rfl, heq]
    refine ⟨rfl, ?_, ?_, ?_⟩
    · rw [hraw]
      simpa using hjoin
    · rw [hraw]
      intro g hg
      rcases List.mem_cons.mp hg with hg | hg
      · exact ⟨i, w, hg, hwithin⟩
      · exact hgs g hg
    · rw [hraw]
      exact hchain

/-- Concrete check of C1: two fragments 20 units apart vertically (with an
8-unit tolerance) split into two lines whose heads violate the tolerance
pairwise and whose concatenation is the input. -/
theorem compactLines_vertical_grouping_witness :
    (groupRaw 12 [wFragA, mkFrag "b" 0 20 5 10 "F"]).flatten =
        [wFragA, mkFrag "b" 0 20 5 10 "F"] ∧
      List.Chain' (groupBoundary 12) (groupRaw 12 [wFragA, mkFrag "b" 0 20 5 10 "F"]) :=
  ⟨(compactLines_vertical_grouping 12 [wFragA, mkFrag "b" 0 20 5 10 "F"]).2.1,
   (compactLines_vertical_grouping 12 [wFragA, mkFrag "b" 0 20 5 10 "F"]).2.2.2⟩

/-! ## C2: the global heading ladder -/

theorem collectGo_facts (minH : ℚ) :
    ∀ (lines : List LineItem) (acc : List ℚ),
      (∀ x ∈ acc, x > minH) →
      List.Pairwise (fun a b : ℚ => 1 ≤ |a - b|) acc →
      (∀ x ∈ collectGo minH acc lines, x > minH) ∧
        List.Pairwise (fun a b : ℚ => 1 ≤ |a - b|) (collectGo minH acc lines) := by
  intro lines
  induction lines with
  | nil =>
    intro acc h1 h2
    exact ⟨h1, h2⟩
  | cons l ls ih =>
    intro acc h1 h2
    by_cases hc : lineMaxFontSize l > minH ∧ ¬isListItemShaped l ∧
        ¬acc.any (fun dh => |dh - lineMaxFontSize l| < 1)
    · rw [collectGo, if_pos hc]
      refine ih (acc ++ [lineMaxFontSize l]) ?_ ?_
      · intro x hx
        rcases List.mem_append.mp hx with hx | hx
        · exact h1 x hx
        · rw [List.mem_singleton] at hx
          rw [hx]
          exact hc.1
      · rw [List.pairwise_append]
        refine ⟨h2, List.pairwise_singleton _ _, ?_⟩
        intro a ha b hb
        rw [List.mem_singleton] at hb
        subst hb
        have := hc.2.2
        rw [List.any_eq_true] at this
        push_neg at this
        have hfar := this a ha
        simp only [ne_eq, decide_eq_true_eq] at hfar
        exact not_lt.mp hfar
    · rw [collectGo, if_neg hc]
      exact ih acc h1 h2

theorem applyLadder_eq (maxH min2 minH : ℚ) (heights : List ℚ) (l : LineItem) (pos : Nat)
    (hpar : l.blockType = BlockType.paragraph)
    (hge : lineMaxFontSize l ≥ minH)
    (hfind : position (fun dh => decide (|dh - lineMaxFontSize l| < 1)) heights = some pos) :
    applyTitleAndLadder false maxH min2 minH heights l =
      if pos ≤ 4 then ladderLevel pos else BlockType.paragraph := by
  unfold applyTitleAndLadder
  rw [if_pos hpar]
  simp only [Bool.false_eq_true, false_and, if_false]
  rw [if_pos hge, hfind]
  dsimp only
  rcases pos with _ | _ | _ | _ | _ | m
  · norm_num [ladderLevel]
  · norm_num [ladderLevel]
  · norm_num [ladderLevel]
  · norm_num [ladderLevel]
  · norm_num [ladderLevel]
  · rw [if_neg (show ¬m + 1 + 1 + 1 + 1 + 1 + 2 ≤ 6 by omega),
      if_neg (show ¬m + 1 + 1 + 1 + 1 + 1 ≤ 4 by omega)]
    exact hpar

/-- C2 (amended): the collected heading sizes are all strictly above
`dominant × 1.01`, pairwise at least 1.0 apart and sorted descending; a
remaining Paragraph line whose size matches position `pos` of the ladder
gets H2 at position 0 through H6 at position 4, while a match at position
5 or beyond leaves the line a Paragraph (no heading is assigned). -/
theorem detectHeaders_global_ladder (minH maxH min2 : ℚ) (lines : List LineItem)
    (l : LineItem) (pos : Nat)
    (hpar : l.blockType = BlockType.paragraph)
    (hge : lineMaxFontSize l ≥ minH)
    (hfind : position (fun dh => decide (|dh - lineMaxFontSize l| < 1))
      (distinctHeightsSorted minH lines) = some pos) :
    (∀ h ∈ distinctHeightsSorted minH lines, h > minH) ∧
    List.Sorted (fun a b : ℚ => b ≤ a) (distinctHeightsSorted minH lines) ∧
    List.Pairwise (fun a b : ℚ => 1 ≤ |a - b|) (distinctHeightsSorted minH lines) ∧
    applyTitleAndLadder false maxH min2 minH (distinctHeightsSorted minH lines) l =
      if pos ≤ 4 then ladderLevel pos else BlockType.paragraph := by
  have hfacts := collectGo_facts minH lines [] (by simp) (by simp)
  have hperm : List.Perm (distinctHeightsSorted minH lines)
      (collectDistinctHeights minH lines) :=
    List.perm_insertionSort _ _
  refine ⟨?_, ?_, ?_, ?_⟩
  · intro h hh
    exact hfacts.1 h (hperm.mem_iff.mp hh)
  · exact List.sorted_insertionSort _ _
  · refine (hperm.pairwise_iff ?_).mpr hfacts.2
    intro a b hab
    rw [abs_sub_comm]
    exact hab
  · exact applyLadder_eq maxH min2 minH _ l pos hpar hge hfind

theorem isListItemShaped_hLine (h : ℚ) : isListItemShaped (hLine h) = false := rfl

theorem lineMaxFontSize_hLine (h : ℚ) : lineMaxFontSize (hLine h) = max 0 h := rfl

/-- C2 counterexample: with six distinct header sizes 70…20 over dominant
size 10, the Paragraph line of size 20 matches ladder position 5 — at or
beyond the H6 slot — yet stays a Paragraph instead of receiving H6. -/
theorem detectHeaders_global_ladder_counterexample :
    position (fun dh => decide (|dh - lineMaxFontSize (hLine 20)| < 1))
        (distinctHeightsSorted (101 / 10) ladderLines) = some 5 ∧
    (hLine 20).blockType = BlockType.paragraph ∧
    lineMaxFontSize (hLine 20) ≥ 101 / 10 ∧
    applyTitleAndLadder false 70 25 (101 / 10) (distinctHeightsSorted (101 / 10) ladderLines)
        (hLine 20) = BlockType.paragraph ∧
    BlockType.paragraph ≠ BlockType.h6 := by
  have hcol : collectDistinctHeights (101 / 10) ladderLines = [70, 60, 50, 40, 30, 20] := by
    norm_num [collectDistinctHeights, collectGo, ladderLines, isListItemShaped_hLine,
      lineMaxFontSize_hLine, max_def]
  have hsort : distinctHeightsSorted (101 / 10) ladderLines = [70, 60, 50, 40, 30, 20] := by
    unfold distinctHeightsSorted
    rw [hcol]
    norm_num [List.insertionSort, List.orderedInsert]
  have hpos : position (fun dh => decide (|dh - lineMaxFontSize (hLine 20)| < 1))
      [(70 : ℚ), 60, 50, 40, 30, 20] = some 5 := by
    norm_num [position, lineMaxFontSize_hLine, max_def]
  refine ⟨by rw [hsort]; exact hpos, rfl, ?_, ?_, by decide⟩
  · rw [lineMaxFontSize_hLine]
    norm_num
  · rw [applyLadder_eq 70 25 (101 / 10) _ (hLine 20) 5 rfl
      (by rw [lineMaxFontSize_hLine]; norm_num) (by rw [hsort]; exact hpos)]
    norm_num

/-- Concrete check of C2 (amended): the size-60 Paragraph line matches
ladder position 1 and becomes H3. -/
theorem detectHeaders_global_ladder_witness :
    applyTitleAndLadder false 70 25 (101 / 10) (distinctHeightsSorted (101 / 10) ladderLines)
        (hLine 60) = BlockType.h3 := by
  have hcol : collectDistinctHeights (101 / 10) ladderLines = [70, 60, 50, 40, 30, 20] := by
    norm_num [collectDistinctHeights, collectGo, ladderLines, isListItemShaped_hLine,
      lineMaxFontSize_hLine, max_def]
  have hsort : distinctHeightsSorted (101 / 10) ladderLines = [70, 60, 50, 40, 30, 20] := by
    unfold distinctHeightsSorted
    rw [hcol]
    norm_num [List.insertionSort, List.orderedInsert]
  have hpos : position (fun dh => decide (|dh - lineMaxFontSize (hLine 60)| < 1))
      (distinctHeightsSorted (101 / 10) ladderLines) = some 1 := by
    rw [hsort]
    norm_num [position, lineMaxFontSize_hLine, max_def]
  have h := (detectHeaders_global_ladder (101 / 10) 70 25 ladderLines (hLine 60) 1 rfl
    (by rw [lineMaxFontSize_hLine]; norm_num) hpos).2.2.2
  rw [h]
  norm_num [ladderLevel]

/-! ## C5: the Repetition Pruner removal characterization -/

theorem prunePage_eq_filter (rmin rmax : Bool) (p : List TextItem) :
    prunePage rmin rmax p =
      p.filter (fun t =>
        !(((match pageMinY p with | some m => inBand m t.y | none => false) && rmin) ||
          ((match pageMaxY p with | some m => inBand m t.y | none => false) && rmax))) := by
  unfold prunePage
  by_cases hflag : (rmin || rmax) = true
  · rw [if_pos hflag]
    cases p with
    | nil => rfl
    | cons a rest => rfl
  · rw [if_neg hflag]
    have h0 : rmin = false ∧ rmax = false := by
      revert hflag
      cases rmin <;> cases rmax <;> simp
    rw [h0.1, h0.2]
    simp

/-- C5: the Repetition Pruner leaves every page unchanged below 3 pages;
with at least 3 pages, it removes a fragment exactly when the fragment
sits (within 0.001) at its page's minimum or maximum `y` and that band has
a fingerprint shared by at least `max(3, ⌈2/3 × pages⌉)` pages, keeping
every other fragment of every page in its original order (a whitespace-only
band has no fingerprint — the sentinel `0` is never counted). -/
theorem removeRepetitive_exactly (pages : List (List TextItem)) :
    (pages.length < 3 → removeRepetitiveElements pages = pages) ∧
    (3 ≤ pages.length →
      removeRepetitiveElements pages =
        pages.map (fun p => p.filter (fun t => !specRemoves pages p t))) := by
  constructor
  · intro h
    unfold removeRepetitiveElements
    rw [if_pos h]
  · intro h
    unfold removeRepetitiveElements
    rw [if_neg (not_lt.mpr h)]
    apply List.map_congr_left
    intro p _
    rw [prunePage_eq_filter]
    rfl

/-- Concrete check of C5: a 3-page document with a shared bottom band is
pruned exactly by the claim-side removal test. -/
theorem removeRepetitive_exactly_witness :
    removeRepetitiveElements confPages =
      confPages.map (fun p => p.filter (fun t => !specRemoves confPages p t)) :=
  (removeRepetitive_exactly confPages).2 (by decide)

end PdfToMd
